import Mathlib

/-!
Verification of the DCA portfolio-backtesting notebook
(batmaxx/portfolio-backtesting-tool, src/Notebook.ipynb).

The notebook has three pieces of logic:
  * load_data      : per-ticker fetch, start-date availability check, concat, round(2)
  * resample_data  : df_prices.resample("1D").last().fillna(method="ffill")
  * get_portfolio  : the day-stepping DCA accumulation loop

We embed them shallowly:
  * prices and amounts are rationals (exact real-number arithmetic);
  * a calendar date is a (year, month, day) triple, the code only inspects
    the day-of-month field (day.day == 1);
  * the price frame for the simulator is a list of rows, one per calendar day,
    each row holding the date and a per-ticker price function (the Python code
    iterates over df_prices.index and reads df_prices.loc[day][f(ticker)]);
  * the tickers dict is a list of (ticker, weight) pairs (a Python dict is an
    ordered sequence of distinct keys, so key-uniqueness appears as a
    List.Nodup hypothesis where a proof needs it);
  * the mutable record dict reused per iteration is embedded as a record value
    threaded through the loop, with copy-on-append giving one snapshot per day;
  * raised exceptions become Except errors.
-/

/-- A calendar date; the simulator only branches on the day-of-month field. -/
structure SimDate where
  year : ℕ
  month : ℕ
  day : ℕ
deriving DecidableEq, Repr

/-- One row of the resampled price frame: a date plus the per-ticker price
(the value the code reads as df_prices.loc[day][f"{ticker}_price"]). -/
structure PriceRow where
  date : SimDate
  price : String → ℚ

/-- The per-day record dict built by get_portfolio: date, per-ticker price and
share entries, cumulative amount invested and the portfolio value. -/
structure LedgerRecord where
  date : SimDate
  price : String → ℚ
  shares : String → ℚ
  amount_invested : ℚ
  portfolio_value : ℚ

/-- Source: get_number_of_shares(amount, price, weight) = amount / price * weight. -/
def get_number_of_shares (amount price weight : ℚ) : ℚ :=
  amount / price * weight

/-- The initial record built before the loop: first date, first prices, shares
bought with the initial_amount, amount_invested = portfolio_value = initial_amount. -/
def initRecord (tks : List (String × ℚ)) (row0 : PriceRow) (initial_amount : ℚ) :
    LedgerRecord where
  date := row0.date
  price := tks.foldl (fun acc p => Function.update acc p.1 (row0.price p.1)) (fun _ => 0)
  shares := tks.foldl
    (fun acc p => Function.update acc p.1
      (get_number_of_shares initial_amount (row0.price p.1) p.2)) (fun _ => 0)
  amount_invested := initial_amount
  portfolio_value := initial_amount

/-- Loop body, first part: record["date"] = day and the per-ticker price update. -/
def updateRow (tks : List (String × ℚ)) (row : PriceRow) (rec : LedgerRecord) :
    LedgerRecord :=
  { rec with
    date := row.date
    price := tks.foldl (fun acc p => Function.update acc p.1 (row.price p.1)) rec.price }

/-- Loop body, second part: if day.day == 1, buy shares with the monthly addition
for each ticker (at the freshly updated price) and add it to amount_invested. -/
def applyContribution (tks : List (String × ℚ)) (monthly_addition : ℚ)
    (rec : LedgerRecord) : LedgerRecord :=
  if rec.date.day = 1 then
    { rec with
      shares := tks.foldl
        (fun acc p => Function.update acc p.1
          (acc p.1 + get_number_of_shares monthly_addition (rec.price p.1) p.2))
        rec.shares
      amount_invested := rec.amount_invested + monthly_addition }
  else rec

/-- Loop body, third part: portfolio_value = sum over tickers of shares times price. -/
def revalue (tks : List (String × ℚ)) (rec : LedgerRecord) : LedgerRecord :=
  { rec with
    portfolio_value := tks.foldl (fun acc p => acc + rec.shares p.1 * rec.price p.1) 0 }

/-- One full iteration of the day loop of get_portfolio. -/
def step (tks : List (String × ℚ)) (monthly_addition : ℚ) (rec : LedgerRecord)
    (row : PriceRow) : LedgerRecord :=
  revalue tks (applyContribution tks monthly_addition (updateRow tks row rec))

/-- The loop of get_portfolio: iterate over every row (day 0 included), mutate the
working record, append a copy after each day.  The appended snapshots are exactly
the successive states of the working record. -/
def runRecords (tks : List (String × ℚ)) (monthly_addition : ℚ) :
    LedgerRecord → List PriceRow → List LedgerRecord
  | _, [] => []
  | rec, row :: rows =>
    let r := step tks monthly_addition rec row
    r :: runRecords tks monthly_addition r rows

/-- Exceptions raised by get_portfolio: the ValueError for weights not summing to 1,
and the IndexError that df_prices.index[0] raises on an empty frame. -/
inductive PortfolioError where
  | invalidWeights : PortfolioError
  | indexError : PortfolioError
deriving DecidableEq, Repr

/-- Source: get_portfolio(tickers, df_prices, initial_amount, monthly_addition).
Checks the weight sum, builds the initial record from the first row, then loops
over all days appending a snapshot per day. -/
def get_portfolio (tks : List (String × ℚ)) (df_prices : List PriceRow)
    (initial_amount monthly_addition : ℚ) :
    Except PortfolioError (List LedgerRecord) :=
  if (tks.map (fun p => p.2)).sum ≠ 1 then .error .invalidWeights
  else
    match df_prices with
    | [] => .error .indexError
    | row0 :: _ =>
      .ok (runRecords tks monthly_addition (initRecord tks row0 initial_amount) df_prices)

/-- Folding per-ticker dict updates over keys not containing t leaves entry t unchanged. -/
theorem foldl_update_preserve (l : List (String × ℚ))
    (v : (String → ℚ) → (String × ℚ) → ℚ) (f : String → ℚ) (t : String)
    (ht : t ∉ l.map Prod.fst) :
    l.foldl (fun acc p => Function.update acc p.1 (v acc p)) f t = f t := by
  induction l generalizing f with
  | nil => rfl
  | cons p l ih =>
    simp only [List.map_cons, List.mem_cons, not_or] at ht
    simp only [List.foldl_cons]
    rw [ih _ ht.2, Function.update_noteq ht.1]

/-- Folding per-ticker dict updates over a dict with distinct keys: the entry of a
key present in the dict is the update value computed from the pre-fold state,
provided the value only reads the accumulator at its own key. -/
theorem foldl_update_apply (l : List (String × ℚ))
    (v : (String → ℚ) → (String × ℚ) → ℚ)
    (hv : ∀ a b p, a p.1 = b p.1 → v a p = v b p)
    (f : String → ℚ) (p0 : String × ℚ) (hp0 : p0 ∈ l)
    (hnd : (l.map Prod.fst).Nodup) :
    l.foldl (fun acc p => Function.update acc p.1 (v acc p)) f p0.1 = v f p0 := by
  induction l generalizing f with
  | nil => cases hp0
  | cons p l ih =>
    simp only [List.map_cons, List.nodup_cons] at hnd
    simp only [List.foldl_cons]
    rcases List.mem_cons.mp hp0 with h | h
    · subst h
      rw [foldl_update_preserve l v _ _ hnd.1, Function.update_same]
    · have hne : p0.1 ≠ p.1 := by
        intro hcontra
        exact hnd.1 (hcontra ▸ List.mem_map_of_mem Prod.fst h)
      rw [ih _ h hnd.2]
      exact hv _ _ _ (Function.update_noteq hne _ _)

/-- Folding a running sum over the dict equals the initial value plus the list sum. -/
theorem foldl_add_eq_sum (l : List (String × ℚ)) (F : String × ℚ → ℚ) (a : ℚ) :
    l.foldl (fun acc p => acc + F p) a = a + (l.map F).sum := by
  induction l generalizing a with
  | nil => simp
  | cons p l ih => simp [ih, add_assoc]

theorem updateRow_date (tks : List (String × ℚ)) (row : PriceRow) (rec : LedgerRecord) :
    (updateRow tks row rec).date = row.date := rfl

theorem updateRow_shares (tks : List (String × ℚ)) (row : PriceRow) (rec : LedgerRecord) :
    (updateRow tks row rec).shares = rec.shares := rfl

theorem updateRow_amount (tks : List (String × ℚ)) (row : PriceRow) (rec : LedgerRecord) :
    (updateRow tks row rec).amount_invested = rec.amount_invested := rfl

theorem updateRow_price_apply (tks : List (String × ℚ)) (row : PriceRow)
    (rec : LedgerRecord) (p0 : String × ℚ) (hp0 : p0 ∈ tks)
    (hnd : (tks.map Prod.fst).Nodup) :
    (updateRow tks row rec).price p0.1 = row.price p0.1 := by
  unfold updateRow
  exact foldl_update_apply tks (fun _ p => row.price p.1) (fun _ _ _ _ => rfl)
    rec.price p0 hp0 hnd

theorem applyContribution_date (tks : List (String × ℚ)) (m : ℚ) (rec : LedgerRecord) :
    (applyContribution tks m rec).date = rec.date := by
  unfold applyContribution; split <;> rfl

theorem applyContribution_price (tks : List (String × ℚ)) (m : ℚ) (rec : LedgerRecord) :
    (applyContribution tks m rec).price = rec.price := by
  unfold applyContribution; split <;> rfl

theorem applyContribution_amount (tks : List (String × ℚ)) (m : ℚ) (rec : LedgerRecord) :
    (applyContribution tks m rec).amount_invested =
      if rec.date.day = 1 then rec.amount_invested + m else rec.amount_invested := by
  unfold applyContribution; split <;> simp_all

theorem applyContribution_shares_ne (tks : List (String × ℚ)) (m : ℚ)
    (rec : LedgerRecord) (h : rec.date.day ≠ 1) :
    (applyContribution tks m rec).shares = rec.shares := by
  unfold applyContribution; rw [if_neg h]

theorem applyContribution_shares_apply (tks : List (String × ℚ)) (m : ℚ)
    (rec : LedgerRecord) (h : rec.date.day = 1) (p0 : String × ℚ) (hp0 : p0 ∈ tks)
    (hnd : (tks.map Prod.fst).Nodup) :
    (applyContribution tks m rec).shares p0.1 =
      rec.shares p0.1 + get_number_of_shares m (rec.price p0.1) p0.2 := by
  unfold applyContribution
  rw [if_pos h]
  exact foldl_update_apply tks _ (fun a b p hab => by rw [hab]) _ p0 hp0 hnd

theorem applyContribution_shares_preserve (tks : List (String × ℚ)) (m : ℚ)
    (rec : LedgerRecord) (t : String) (ht : t ∉ tks.map Prod.fst) :
    (applyContribution tks m rec).shares t = rec.shares t := by
  unfold applyContribution
  split
  · exact foldl_update_preserve tks _ _ t ht
  · rfl

theorem revalue_date (tks : List (String × ℚ)) (rec : LedgerRecord) :
    (revalue tks rec).date = rec.date := rfl

theorem revalue_shares (tks : List (String × ℚ)) (rec : LedgerRecord) :
    (revalue tks rec).shares = rec.shares := rfl

theorem revalue_price (tks : List (String × ℚ)) (rec : LedgerRecord) :
    (revalue tks rec).price = rec.price := rfl

theorem revalue_amount (tks : List (String × ℚ)) (rec : LedgerRecord) :
    (revalue tks rec).amount_invested = rec.amount_invested := rfl

theorem revalue_value (tks : List (String × ℚ)) (rec : LedgerRecord) :
    (revalue tks rec).portfolio_value =
      tks.foldl (fun acc p => acc + rec.shares p.1 * rec.price p.1) 0 := rfl

theorem step_date (tks : List (String × ℚ)) (m : ℚ) (rec : LedgerRecord) (row : PriceRow) :
    (step tks m rec row).date = row.date := by
  rw [step, revalue_date, applyContribution_date, updateRow_date]

theorem step_amount (tks : List (String × ℚ)) (m : ℚ) (rec : LedgerRecord) (row : PriceRow) :
    (step tks m rec row).amount_invested =
      if row.date.day = 1 then rec.amount_invested + m else rec.amount_invested := by
  rw [step, revalue_amount, applyContribution_amount, updateRow_date, updateRow_amount]

theorem step_price_apply (tks : List (String × ℚ)) (m : ℚ) (rec : LedgerRecord)
    (row : PriceRow) (p0 : String × ℚ) (hp0 : p0 ∈ tks) (hnd : (tks.map Prod.fst).Nodup) :
    (step tks m rec row).price p0.1 = row.price p0.1 := by
  rw [step, revalue_price, applyContribution_price, updateRow_price_apply _ _ _ _ hp0 hnd]

theorem step_shares_apply (tks : List (String × ℚ)) (m : ℚ) (rec : LedgerRecord)
    (row : PriceRow) (p0 : String × ℚ) (hp0 : p0 ∈ tks) (hnd : (tks.map Prod.fst).Nodup) :
    (step tks m rec row).shares p0.1 =
      if row.date.day = 1 then
        rec.shares p0.1 + get_number_of_shares m (row.price p0.1) p0.2
      else rec.shares p0.1 := by
  rw [step, revalue_shares]
  by_cases h : row.date.day = 1
  · rw [if_pos h,
      applyContribution_shares_apply _ _ _ (by rw [updateRow_date]; exact h) p0 hp0 hnd,
      updateRow_shares, updateRow_price_apply _ _ _ _ hp0 hnd]
  · rw [if_neg h, applyContribution_shares_ne _ _ _ (by rw [updateRow_date]; exact h),
      updateRow_shares]

theorem step_shares_preserve (tks : List (String × ℚ)) (m : ℚ) (rec : LedgerRecord)
    (row : PriceRow) (t : String) (ht : t ∉ tks.map Prod.fst) :
    (step tks m rec row).shares t = rec.shares t := by
  rw [step, revalue_shares, applyContribution_shares_preserve _ _ _ _ ht, updateRow_shares]

/-- The snapshot list has one entry per day of the price frame. -/
theorem runRecords_length (tks : List (String × ℚ)) (m : ℚ) :
    ∀ (rows : List PriceRow) (rec : LedgerRecord),
      (runRecords tks m rec rows).length = rows.length := by
  intro rows
  induction rows with
  | nil => intro rec; rfl
  | cons row rows ih => intro rec; simp [runRecords, ih]

/-- The i-th snapshot is the fold of the day step over the first i+1 rows: each
appended record is fully determined by the days up to and including day i. -/
theorem runRecords_getElem (tks : List (String × ℚ)) (m : ℚ) :
    ∀ (rows : List PriceRow) (rec : LedgerRecord) (i : ℕ),
      (runRecords tks m rec rows)[i]? =
        (rows[i]?).map (fun _ => (rows.take (i + 1)).foldl (step tks m) rec) := by
  intro rows
  induction rows with
  | nil => intro rec i; rfl
  | cons row rows ih =>
    intro rec i
    match i with
    | 0 => simp [runRecords]
    | i + 1 =>
      simp only [runRecords, List.getElem?_cons_succ, ih (step tks m rec row) i,
        List.take_succ_cons, List.foldl_cons]

/-- Unfolding a successful get_portfolio call: the weights summed to 1, the frame
was non-empty, and the result is the loop run from the initial record. -/
theorem get_portfolio_ok (tks : List (String × ℚ)) (rows : List PriceRow)
    (init m : ℚ) (recs : List LedgerRecord)
    (h : get_portfolio tks rows init m = .ok recs) :
    (tks.map (fun p => p.2)).sum = 1 ∧
      ∃ row0 rest, rows = row0 :: rest ∧
        recs = runRecords tks m (initRecord tks row0 init) rows := by
  unfold get_portfolio at h
  split at h
  · cases h
  · next hsum =>
    cases rows with
    | nil => exact Except.noConfusion h
    | cons row0 rest =>
      exact ⟨not_not.mp hsum, row0, rest, rfl, (Except.ok.inj h).symm⟩

theorem initRecord_amount (tks : List (String × ℚ)) (row0 : PriceRow) (init : ℚ) :
    (initRecord tks row0 init).amount_invested = init := rfl

theorem initRecord_shares_apply (tks : List (String × ℚ)) (row0 : PriceRow) (init : ℚ)
    (p0 : String × ℚ) (hp0 : p0 ∈ tks) (hnd : (tks.map Prod.fst).Nodup) :
    (initRecord tks row0 init).shares p0.1 =
      get_number_of_shares init (row0.price p0.1) p0.2 := by
  unfold initRecord
  exact foldl_update_apply tks
    (fun _ p => get_number_of_shares init (row0.price p.1) p.2)
    (fun _ _ _ _ => rfl) (fun _ => 0) p0 hp0 hnd

/-- Folding one more day over a prefix of the frame is one more step. -/
theorem foldl_take_succ (tks : List (String × ℚ)) (m : ℚ) (rows : List PriceRow)
    (rec : LedgerRecord) (i : ℕ) (row : PriceRow) (h : rows[i + 1]? = some row) :
    (rows.take (i + 2)).foldl (step tks m) rec =
      step tks m ((rows.take (i + 1)).foldl (step tks m) rec) row := by
  rw [List.take_succ, h]
  simp [List.foldl_append]

/-- Consecutive snapshots in a successful run are related by one loop iteration. -/
theorem recs_consecutive (tks : List (String × ℚ)) (rows : List PriceRow)
    (init m : ℚ) (recs : List LedgerRecord)
    (hok : get_portfolio tks rows init m = .ok recs)
    (i : ℕ) (r r2 : LedgerRecord)
    (h : recs[i]? = some r) (h2 : recs[i + 1]? = some r2) :
    ∃ row, rows[i + 1]? = some row ∧ r2 = step tks m r row := by
  obtain ⟨-, row0, rest, hrows, hrecs⟩ := get_portfolio_ok tks rows init m recs hok
  subst hrecs
  rw [runRecords_getElem] at h h2
  match hrow : rows[i + 1]? with
  | none => rw [hrow] at h2; cases h2
  | some row =>
    refine ⟨row, rfl, ?_⟩
    rw [hrow] at h2
    have hr2 : r2 = (rows.take (i + 2)).foldl (step tks m) (initRecord tks row0 init) :=
      (Option.some.inj h2).symm
    match hrowi : rows[i]? with
    | none => rw [hrowi] at h; cases h
    | some rowi =>
      rw [hrowi] at h
      have hr : r = (rows.take (i + 1)).foldl (step tks m) (initRecord tks row0 init) :=
        (Option.some.inj h).symm
      rw [hr2, hr, foldl_take_succ tks m rows _ i row hrow]

/-- Concrete single-ticker portfolio dict used by the witnesses. -/
def tksX : List (String × ℚ) := [("X", 1)]

/-- Concrete price row with a flat price of 10 for every ticker. -/
def rowOf (y mo d : ℕ) : PriceRow := ⟨⟨y, mo, d⟩, fun _ => 10⟩

/-- C6: in the emitted record sequence, amount_invested increases by exactly
monthly_addition between consecutive records whenever the later record has
day-of-month 1, and is unchanged between consecutive records otherwise. -/
theorem contribution_cadence (tks : List (String × ℚ)) (rows : List PriceRow)
    (init m : ℚ) (recs : List LedgerRecord)
    (hok : get_portfolio tks rows init m = .ok recs)
    (i : ℕ) (r r2 : LedgerRecord)
    (h : recs[i]? = some r) (h2 : recs[i + 1]? = some r2) :
    (r2.date.day = 1 → r2.amount_invested = r.amount_invested + m) ∧
      (r2.date.day ≠ 1 → r2.amount_invested = r.amount_invested) := by
  obtain ⟨row, hrow, hstep⟩ := recs_consecutive tks rows init m recs hok i r r2 h h2
  subst hstep
  rw [step_date, step_amount]
  constructor
  · intro hd; rw [if_pos hd]
  · intro hd; rw [if_neg hd]

/-- C6 witness: a three-day run over Jan 31, Feb 1, Feb 2; the Feb 1 record gains
exactly the monthly addition of 200 and the Feb 2 record gains nothing. -/
theorem contribution_cadence_witness :
    ∃ recs r0 r1 r2,
      get_portfolio tksX [rowOf 2021 1 31, rowOf 2021 2 1, rowOf 2021 2 2] 1000 200
          = .ok recs ∧
        recs[0]? = some r0 ∧ recs[1]? = some r1 ∧ recs[2]? = some r2 ∧
        r1.amount_invested = r0.amount_invested + 200 ∧
        r2.amount_invested = r1.amount_invested := by
  have hok : get_portfolio tksX [rowOf 2021 1 31, rowOf 2021 2 1, rowOf 2021 2 2] 1000 200
      = .ok (runRecords tksX 200 (initRecord tksX (rowOf 2021 1 31) 1000)
          [rowOf 2021 1 31, rowOf 2021 2 1, rowOf 2021 2 2]) := by
    unfold get_portfolio tksX
    norm_num
  refine ⟨_, _, _, _, hok, rfl, rfl, rfl, ?_, ?_⟩
  · exact (contribution_cadence tksX _ 1000 200 _ hok 0 _ _ rfl rfl).1
      (by rfl)
  · exact (contribution_cadence tksX _ 1000 200 _ hok 1 _ _ rfl rfl).2
      (by decide)

/-- C5: per-ticker share counts never decrease between consecutive records, given
a non-negative monthly addition, non-negative weights and positive prices. -/
theorem monotonic_shares (tks : List (String × ℚ)) (rows : List PriceRow)
    (init m : ℚ) (recs : List LedgerRecord)
    (hnd : (tks.map Prod.fst).Nodup) (hm : 0 ≤ m)
    (hw : ∀ p ∈ tks, 0 ≤ p.2)
    (hpr : ∀ row ∈ rows, ∀ p ∈ tks, 0 < row.price p.1)
    (hok : get_portfolio tks rows init m = .ok recs)
    (i : ℕ) (r r2 : LedgerRecord) (t : String)
    (h : recs[i]? = some r) (h2 : recs[i + 1]? = some r2) :
    r.shares t ≤ r2.shares t := by
  obtain ⟨row, hrow, hstep⟩ := recs_consecutive tks rows init m recs hok i r r2 h h2
  subst hstep
  have hrmem : row ∈ rows := by
    obtain ⟨hlt, rfl⟩ := List.getElem?_eq_some.mp hrow
    exact List.getElem_mem hlt
  by_cases ht : t ∈ tks.map Prod.fst
  · obtain ⟨p0, hp0, rfl⟩ := List.mem_map.mp ht
    rw [step_shares_apply tks m r row p0 hp0 hnd]
    split
    · have hprice : 0 < row.price p0.1 := hpr row hrmem p0 hp0
      have hge : 0 ≤ get_number_of_shares m (row.price p0.1) p0.2 := by
        unfold get_number_of_shares
        exact mul_nonneg (div_nonneg hm (le_of_lt hprice)) (hw p0 hp0)
      linarith
    · exact le_refl _
  · rw [step_shares_preserve tks m r row t ht]

/-- C5 witness: in the two-day run over Jan 31 and Feb 1 the share count of ticker
X does not decrease from the first record to the second. -/
theorem monotonic_shares_witness :
    ∃ recs r0 r1,
      get_portfolio tksX [rowOf 2021 1 31, rowOf 2021 2 1] 1000 200 = .ok recs ∧
        recs[0]? = some r0 ∧ recs[1]? = some r1 ∧
        r0.shares "X" ≤ r1.shares "X" := by
  have hok : get_portfolio tksX [rowOf 2021 1 31, rowOf 2021 2 1] 1000 200
      = .ok (runRecords tksX 200 (initRecord tksX (rowOf 2021 1 31) 1000)
          [rowOf 2021 1 31, rowOf 2021 2 1]) := by
    unfold get_portfolio tksX
    norm_num
  refine ⟨_, _, _, hok, rfl, rfl, ?_⟩
  exact monotonic_shares tksX _ 1000 200 _ (by decide) (by norm_num)
    (by intro p hp; simp only [tksX, List.mem_singleton] at hp; subst hp; norm_num)
    (by
      intro row hrow p hp
      simp only [tksX, List.mem_singleton] at hp
      subst hp
      fin_cases hrow <;> norm_num [rowOf])
    hok 0 _ _ "X" rfl rfl

/-- C2: when the first date of the series has day-of-month 1, the first emitted
record receives both the initial lump sum and the monthly contribution:
amount_invested is initial + monthly and each ticker holds
(initial + monthly) * weight / price0 shares. -/
theorem first_day_receives_both (tks : List (String × ℚ)) (row0 : PriceRow)
    (rest : List PriceRow) (init m : ℚ) (recs : List LedgerRecord)
    (hnd : (tks.map Prod.fst).Nodup) (hday : row0.date.day = 1)
    (hok : get_portfolio tks (row0 :: rest) init m = .ok recs) :
    ∃ r, recs.head? = some r ∧ r.amount_invested = init + m ∧
      ∀ p ∈ tks, r.shares p.1 = (init + m) * p.2 / row0.price p.1 := by
  obtain ⟨hsum, row0b, restb, hrows, hrecs⟩ :=
    get_portfolio_ok tks (row0 :: rest) init m recs hok
  obtain ⟨hb, -⟩ := List.cons.inj hrows
  subst hrecs
  rw [← hb]
  refine ⟨step tks m (initRecord tks row0 init) row0, rfl, ?_, ?_⟩
  · rw [step_amount, if_pos hday, initRecord_amount]
  · intro p hp
    rw [step_shares_apply tks m _ row0 p hp hnd, if_pos hday,
      initRecord_shares_apply tks row0 init p hp hnd]
    unfold get_number_of_shares
    ring

/-- C2 witness: a run starting on Jan 1 at a flat price of 10 with initial amount
1000 and monthly addition 200 has a first record as described by the theorem. -/
theorem first_day_receives_both_witness :
    ∃ recs r,
      get_portfolio tksX [rowOf 2021 1 1, rowOf 2021 1 2] 1000 200 = .ok recs ∧
        recs.head? = some r ∧ r.amount_invested = 1000 + 200 ∧
        ∀ p ∈ tksX, r.shares p.1 = (1000 + 200) * p.2 / (rowOf 2021 1 1).price p.1 := by
  have hok : get_portfolio tksX [rowOf 2021 1 1, rowOf 2021 1 2] 1000 200
      = .ok (runRecords tksX 200 (initRecord tksX (rowOf 2021 1 1) 1000)
          [rowOf 2021 1 1, rowOf 2021 1 2]) := by
    unfold get_portfolio tksX
    norm_num
  obtain ⟨r, h1, h2, h3⟩ :=
    first_day_receives_both tksX (rowOf 2021 1 1) [rowOf 2021 1 2] 1000 200 _
      (by decide) (by decide) hok
  exact ⟨_, r, hok, h1, h2, h3⟩

/-- C3 counterexample: an input allowed by the claim (non-empty gap-free series,
positive prices, initial_amount 1000) whose first emitted record has
portfolio_value 1200, not the initial amount 1000, because the first date has
day-of-month 1 and the monthly addition of 200 already fires on day 0. -/
theorem day0_value_counterexample :
    ∃ recs r,
      get_portfolio tksX [rowOf 2021 1 1] 1000 200 = .ok recs ∧
        recs.head? = some r ∧ r.portfolio_value = 1200 ∧ (1200 : ℚ) ≠ 1000 := by
  have hok : get_portfolio tksX [rowOf 2021 1 1] 1000 200
      = .ok (runRecords tksX 200 (initRecord tksX (rowOf 2021 1 1) 1000)
          [rowOf 2021 1 1]) := by
    unfold get_portfolio tksX
    norm_num
  refine ⟨_, _, hok, rfl, ?_, by norm_num⟩
  show (step tksX 200 (initRecord tksX (rowOf 2021 1 1) 1000) (rowOf 2021 1 1)).portfolio_value
      = 1200
  simp [step, revalue, applyContribution, updateRow, initRecord, get_number_of_shares,
    tksX, rowOf]
  norm_num

/-- C3 (amended): for a non-empty series with positive prices and any
initial_amount, if the first date does not have day-of-month 1 then the first
emitted record portfolio_value equals initial_amount exactly. -/
theorem day0_value_eq_initial (tks : List (String × ℚ)) (row0 : PriceRow)
    (rest : List PriceRow) (init m : ℚ) (recs : List LedgerRecord)
    (hnd : (tks.map Prod.fst).Nodup)
    (hinit : 0 ≤ init)
    (hpos : ∀ p ∈ tks, 0 < row0.price p.1)
    (hday : row0.date.day ≠ 1)
    (hok : get_portfolio tks (row0 :: rest) init m = .ok recs) :
    ∃ r, recs.head? = some r ∧ r.portfolio_value = init := by
  obtain ⟨hsum, row0b, restb, hrows, hrecs⟩ :=
    get_portfolio_ok tks (row0 :: rest) init m recs hok
  obtain ⟨hb, -⟩ := List.cons.inj hrows
  subst hrecs
  rw [← hb]
  refine ⟨step tks m (initRecord tks row0 init) row0, rfl, ?_⟩
  have hd2 : (applyContribution tks m (updateRow tks row0 (initRecord tks row0 init))).date.day ≠ 1 := by
    rw [applyContribution_date, updateRow_date]
    exact hday
  rw [step, revalue_value]
  have hsh : (applyContribution tks m (updateRow tks row0 (initRecord tks row0 init))).shares
      = (initRecord tks row0 init).shares := by
    rw [applyContribution_shares_ne _ _ _ (by rw [updateRow_date]; exact hday), updateRow_shares]
  have hprc : (applyContribution tks m (updateRow tks row0 (initRecord tks row0 init))).price
      = (updateRow tks row0 (initRecord tks row0 init)).price := by
    rw [applyContribution_price]
  rw [hsh, hprc, foldl_add_eq_sum, zero_add]
  have hmap : tks.map (fun p =>
        (initRecord tks row0 init).shares p.1 *
          (updateRow tks row0 (initRecord tks row0 init)).price p.1)
      = tks.map (fun p => init * p.2) := by
    apply List.map_congr_left
    intro p hp
    rw [initRecord_shares_apply tks row0 init p hp hnd,
      updateRow_price_apply tks row0 _ p hp hnd]
    unfold get_number_of_shares
    have hne : row0.price p.1 ≠ 0 := ne_of_gt (hpos p hp)
    field_simp
  rw [hmap]
  have : (tks.map (fun p => init * p.2)).sum = init * (tks.map (fun p => p.2)).sum := by
    rw [← List.sum_map_mul_left]
  rw [this, hsum, mul_one]

/-- C3 (amended) witness: a run starting on Jan 2 at a flat positive price has a
first record whose portfolio_value is exactly the initial amount of 1000. -/
theorem day0_value_eq_initial_witness :
    ∃ recs r,
      get_portfolio tksX [rowOf 2021 1 2] 1000 200 = .ok recs ∧
        recs.head? = some r ∧ r.portfolio_value = 1000 := by
  have hok : get_portfolio tksX [rowOf 2021 1 2] 1000 200
      = .ok (runRecords tksX 200 (initRecord tksX (rowOf 2021 1 2) 1000)
          [rowOf 2021 1 2]) := by
    unfold get_portfolio tksX
    norm_num
  obtain ⟨r, h1, h2⟩ :=
    day0_value_eq_initial tksX (rowOf 2021 1 2) [] 1000 200 _
      (by decide) (by norm_num)
      (by intro p hp; simp only [tksX, List.mem_singleton] at hp; subst hp; norm_num [rowOf])
      (by decide) hok
  exact ⟨_, r, hok, h1, h2⟩

/-- C4: weight sums of 0.95 or 1.05 make get_portfolio raise the invalid-weights
error before producing any record, while a weight sum of exactly 1 never raises
that error. -/
theorem weight_sum_check (tks : List (String × ℚ)) (rows : List PriceRow)
    (init m : ℚ) :
    (((tks.map (fun p => p.2)).sum = 95 / 100 ∨ (tks.map (fun p => p.2)).sum = 105 / 100) →
        get_portfolio tks rows init m = .error .invalidWeights) ∧
      ((tks.map (fun p => p.2)).sum = 1 →
        get_portfolio tks rows init m ≠ .error .invalidWeights) := by
  constructor
  · intro hsum
    have hne : (tks.map (fun p => p.2)).sum ≠ 1 := by
      rcases hsum with h | h <;> rw [h] <;> norm_num
    unfold get_portfolio
    rw [if_pos hne]
  · intro hsum
    unfold get_portfolio
    rw [if_neg (by rw [hsum]; exact fun hcontra => hcontra rfl)]
    cases rows with
    | nil => exact fun hcontra => by cases Except.error.inj hcontra
    | cons row0 rest => exact fun hcontra => Except.noConfusion hcontra

/-- C4 witness: a dict with weights summing to 0.95 raises the invalid-weights
error, and the standard 0.8 / 0.2 dict (sum exactly 1) does not. -/
theorem weight_sum_check_witness :
    get_portfolio [("SPY", 8/10), ("SPAB", 15/100)] [rowOf 2021 1 2] 1000 200
        = .error .invalidWeights ∧
      get_portfolio [("SPY", 8/10), ("SPAB", 2/10)] [rowOf 2021 1 2] 1000 200
        ≠ .error .invalidWeights := by
  constructor
  · exact (weight_sum_check [("SPY", 8/10), ("SPAB", 15/100)] [rowOf 2021 1 2] 1000 200).1
      (Or.inl (by norm_num))
  · exact (weight_sum_check [("SPY", 8/10), ("SPAB", 2/10)] [rowOf 2021 1 2] 1000 200).2
      (by norm_num)

/-- C10: each emitted record is an independent snapshot.  Although the source
reuses one mutable dict across iterations, it appends copy(record) each day, so
the i-th record of the final result is fully determined by days 0..i (the fold
of the day step over the first i+1 rows) and still carries day i data (its date
is day i) after the whole run completes. -/
theorem snapshot_independence (tks : List (String × ℚ)) (rows : List PriceRow)
    (init m : ℚ) (recs : List LedgerRecord)
    (hok : get_portfolio tks rows init m = .ok recs)
    (row0 : PriceRow) (hhead : rows.head? = some row0)
    (i : ℕ) (rowi : PriceRow) (hi : rows[i]? = some rowi) :
    ∃ r, recs[i]? = some r ∧
      r = (rows.take (i + 1)).foldl (step tks m) (initRecord tks row0 init) ∧
      r.date = rowi.date := by
  obtain ⟨-, row0b, rest, hrows, hrecs⟩ := get_portfolio_ok tks rows init m recs hok
  subst hrows
  have hb : row0b = row0 := Option.some.inj hhead
  subst hb
  subst hrecs
  refine ⟨_, ?_, rfl, ?_⟩
  · rw [runRecords_getElem, hi]
    rfl
  · cases i with
    | zero =>
      have h0 : rowi = row0b := by
        rw [List.getElem?_cons_zero] at hi
        exact (Option.some.inj hi).symm
      subst h0
      have htake : (rowi :: rest).take (0 + 1) = [rowi] := rfl
      rw [htake, List.foldl_cons, List.foldl_nil, step_date]
    | succ j =>
      rw [foldl_take_succ tks m _ _ j rowi hi, step_date]

/-- C10 witness: in a concrete two-day run the day-0 snapshot of the final list is
the fold over the first row only and holds day 0 data. -/
theorem snapshot_independence_witness :
    ∃ recs r,
      get_portfolio tksX [rowOf 2021 1 2, rowOf 2021 1 3] 1000 200 = .ok recs ∧
        recs[0]? = some r ∧
        r = ([rowOf 2021 1 2, rowOf 2021 1 3].take 1).foldl (step tksX 200)
          (initRecord tksX (rowOf 2021 1 2) 1000) ∧
        r.date = (rowOf 2021 1 2).date := by
  have hok : get_portfolio tksX [rowOf 2021 1 2, rowOf 2021 1 3] 1000 200
      = .ok (runRecords tksX 200 (initRecord tksX (rowOf 2021 1 2) 1000)
          [rowOf 2021 1 2, rowOf 2021 1 3]) := by
    unfold get_portfolio tksX
    norm_num
  obtain ⟨r, h1, h2, h3⟩ :=
    snapshot_independence tksX [rowOf 2021 1 2, rowOf 2021 1 3] 1000 200 _ hok
      (rowOf 2021 1 2) rfl 0 (rowOf 2021 1 2) rfl
  exact ⟨_, r, hok, h1, h2, h3⟩

/-- A successful call unfolded: with weights summing to 1 and a non-empty frame,
get_portfolio returns the loop run from the initial record. -/
theorem get_portfolio_eq_ok (tks : List (String × ℚ)) (rows : List PriceRow)
    (init m : ℚ) (hsum : (tks.map (fun p => p.2)).sum = 1)
    (row0 : PriceRow) (rest : List PriceRow) (hrows : rows = row0 :: rest) :
    get_portfolio tks rows init m
      = .ok (runRecords tks m (initRecord tks row0 init) rows) := by
  unfold get_portfolio
  rw [if_neg (by rw [hsum]; exact fun h => h rfl)]
  rw [hrows]

/-- Portfolio value of a revalued record over the single-ticker dict. -/
theorem step_value_single (m : ℚ) (rec : LedgerRecord) (row : PriceRow) :
    (step [("X", (1 : ℚ))] m rec row).portfolio_value =
      (step [("X", (1 : ℚ))] m rec row).shares "X" *
        (step [("X", (1 : ℚ))] m rec row).price "X" := by
  rw [step, revalue_value, revalue_shares, revalue_price]
  simp

/-- Closed form for a single-ticker run at a flat price: the i-th snapshot holds
the starting shares plus (monthly / price) shares per elapsed day-of-month-1 day
among days 0..i, the starting amount plus monthly per such day, and a value of
shares times the flat price. -/
theorem runRecords_flat (m pr : ℚ) :
    ∀ (rows : List PriceRow) (rec : LedgerRecord),
      (∀ row ∈ rows, row.price "X" = pr) →
      ∀ i r, (runRecords [("X", (1 : ℚ))] m rec rows)[i]? = some r →
        r.shares "X" = rec.shares "X"
            + m / pr * (((rows.take (i + 1)).countP (fun row => row.date.day == 1) : ℕ) : ℚ) ∧
          r.amount_invested = rec.amount_invested
            + m * (((rows.take (i + 1)).countP (fun row => row.date.day == 1) : ℕ) : ℚ) ∧
          r.portfolio_value = r.shares "X" * pr := by
  intro rows
  induction rows with
  | nil => intro rec hflat i r hr; cases hr
  | cons row rows ih =>
    intro rec hflat i r hr
    have hflatrow : row.price "X" = pr := hflat row (List.mem_cons_self row rows)
    have hflat2 : ∀ row2 ∈ rows, row2.price "X" = pr :=
      fun row2 h2 => hflat row2 (List.mem_cons_of_mem row h2)
    have hmem : ("X", (1 : ℚ)) ∈ [("X", (1 : ℚ))] := List.mem_singleton.mpr rfl
    have hnd : ([("X", (1 : ℚ))].map Prod.fst).Nodup := by decide
    have hstep_sh : (step [("X", (1 : ℚ))] m rec row).shares "X"
        = if row.date.day = 1 then rec.shares "X" + m / pr else rec.shares "X" := by
      have := step_shares_apply [("X", (1 : ℚ))] m rec row ("X", (1 : ℚ)) hmem hnd
      rw [this]
      unfold get_number_of_shares
      rw [hflatrow, mul_one]
    have hcons : runRecords [("X", (1 : ℚ))] m rec (row :: rows)
        = step [("X", (1 : ℚ))] m rec row
          :: runRecords [("X", (1 : ℚ))] m (step [("X", (1 : ℚ))] m rec row) rows := rfl
    match i with
    | 0 =>
      have hr2 : r = step [("X", (1 : ℚ))] m rec row := by
        rw [hcons, List.getElem?_cons_zero] at hr
        exact (Option.some.inj hr).symm
      subst hr2
      have hcountN : ((row :: rows).take 1).countP (fun row2 => row2.date.day == 1)
          = if row.date.day = 1 then 1 else 0 := by
        rw [show (row :: rows).take 1 = [row] from rfl, List.countP_cons, List.countP_nil]
        by_cases hd : row.date.day = 1 <;> simp [hd]
      refine ⟨?_, ?_, ?_⟩
      · rw [hstep_sh, hcountN]
        by_cases hd : row.date.day = 1 <;> simp [hd]
      · rw [step_amount, hcountN]
        by_cases hd : row.date.day = 1 <;> simp [hd]
      · rw [step_value_single, step_price_apply [("X", (1 : ℚ))] m rec row _ hmem hnd,
          hflatrow]
    | j + 1 =>
      have hr2 : (runRecords [("X", (1 : ℚ))] m (step [("X", (1 : ℚ))] m rec row) rows)[j]?
          = some r := by
        rw [hcons, List.getElem?_cons_succ] at hr
        exact hr
      obtain ⟨ih1, ih2, ih3⟩ := ih (step [("X", (1 : ℚ))] m rec row) hflat2 j r hr2
      have hcountN : ((row :: rows).take (j + 2)).countP (fun row2 => row2.date.day == 1)
          = (if row.date.day = 1 then 1 else 0)
            + (rows.take (j + 1)).countP (fun row2 => row2.date.day == 1) := by
        rw [List.take_succ_cons, List.countP_cons]
        by_cases hd : row.date.day = 1 <;> simp [hd] <;> ring
      refine ⟨?_, ?_, ih3⟩
      · rw [ih1, hstep_sh, hcountN]
        by_cases hd : row.date.day = 1 <;> push_cast <;> simp [hd] <;> ring
      · rw [ih2, step_amount, hcountN]
        by_cases hd : row.date.day = 1 <;> push_cast <;> simp [hd] <;> ring

/-- The date of the i-th fold state is the date of row i. -/
theorem foldl_take_date (tks : List (String × ℚ)) (m : ℚ) (rows : List PriceRow)
    (rec0 : LedgerRecord) (i : ℕ) (rowi : PriceRow) (hi : rows[i]? = some rowi) :
    ((rows.take (i + 1)).foldl (step tks m) rec0).date = rowi.date := by
  cases i with
  | zero =>
    cases rows with
    | nil => cases hi
    | cons row0 rest =>
      have h0 : rowi = row0 := by
        rw [List.getElem?_cons_zero] at hi
        exact (Option.some.inj hi).symm
      subst h0
      have htake : (rowi :: rest).take (0 + 1) = [rowi] := rfl
      rw [htake, List.foldl_cons, List.foldl_nil, step_date]
  | succ j =>
    rw [foldl_take_succ tks m _ _ j rowi hi, step_date]

/-- The 3-month scenario frame: one row per day of Jan, Feb, Mar 2021 (90 days),
every day priced flat at 10, first day Jan 1. -/
def scenarioTail : List PriceRow :=
  ((List.range 30).map (fun i => rowOf 2021 1 (i + 2)))
    ++ ((List.range 28).map (fun i => rowOf 2021 2 (i + 1)))
    ++ ((List.range 31).map (fun i => rowOf 2021 3 (i + 1)))

/-- The full scenario frame starting on Jan 1. -/
def scenarioRows : List PriceRow := rowOf 2021 1 1 :: scenarioTail

theorem scenarioRows_flat : ∀ row ∈ scenarioRows, row.price "X" = 10 := by
  intro row h
  simp only [scenarioRows, scenarioTail, List.mem_cons, List.mem_append, List.mem_map,
    List.mem_range] at h
  rcases h with rfl | ((⟨i, hi, rfl⟩ | ⟨i, hi, rfl⟩) | ⟨i, hi, rfl⟩) <;> rfl

/-- C1 counterexample: on the scenario of the claim (single ticker at weight 1,
flat price 10, initial 1000, monthly 200, 3 months starting on the 1st) the first
emitted record holds 120 shares, not 100, because the day-of-month-1 rule already
fires on day 0. -/
theorem scenario_counterexample :
    ∃ recs r0,
      get_portfolio [("X", (1 : ℚ))] scenarioRows 1000 200 = .ok recs ∧
        recs[0]? = some r0 ∧ r0.shares "X" = 120 ∧ (120 : ℚ) ≠ 100 := by
  have hok : get_portfolio [("X", (1 : ℚ))] scenarioRows 1000 200
      = .ok (runRecords [("X", (1 : ℚ))] 200
          (initRecord [("X", (1 : ℚ))] (rowOf 2021 1 1) 1000) scenarioRows) :=
    get_portfolio_eq_ok _ _ _ _ (by norm_num) (rowOf 2021 1 1) scenarioTail rfl
  have hrow0 : scenarioRows[0]? = some (rowOf 2021 1 1) := rfl
  have hrec0 : (runRecords [("X", (1 : ℚ))] 200
        (initRecord [("X", (1 : ℚ))] (rowOf 2021 1 1) 1000) scenarioRows)[0]?
      = some ((scenarioRows.take 1).foldl (step [("X", (1 : ℚ))] 200)
          (initRecord [("X", (1 : ℚ))] (rowOf 2021 1 1) 1000)) := by
    rw [runRecords_getElem, hrow0]
    rfl
  obtain ⟨hsh, -, -⟩ := runRecords_flat 200 10 scenarioRows
    (initRecord [("X", (1 : ℚ))] (rowOf 2021 1 1) 1000) scenarioRows_flat 0 _ hrec0
  refine ⟨_, _, hok, hrec0, ?_, by norm_num⟩
  have hc : (scenarioRows.take 1).countP (fun row => row.date.day == 1) = 1 := by decide
  rw [hsh, hc, initRecord_shares_apply _ _ _ ("X", (1 : ℚ)) (List.mem_singleton.mpr rfl)
    (by decide)]
  unfold get_number_of_shares
  rw [show (rowOf 2021 1 1).price "X" = 10 from rfl]
  push_cast
  norm_num

/-- C1 (amended): in the scenario the first record (Jan 1) holds 120 shares, the
record of the second month first (Feb 1) holds 140, the record of the third month
first (Mar 1) holds 160, and the last record (Mar 31, index 89) has
portfolio_value 1600 and amount_invested 1600. -/
theorem scenario_amended :
    ∃ recs r0 r31 r59 r89,
      get_portfolio [("X", (1 : ℚ))] scenarioRows 1000 200 = .ok recs ∧
        recs.length = 90 ∧
        recs[0]? = some r0 ∧ r0.date = ⟨2021, 1, 1⟩ ∧ r0.shares "X" = 120 ∧
        recs[31]? = some r31 ∧ r31.date = ⟨2021, 2, 1⟩ ∧ r31.shares "X" = 140 ∧
        recs[59]? = some r59 ∧ r59.date = ⟨2021, 3, 1⟩ ∧ r59.shares "X" = 160 ∧
        recs[89]? = some r89 ∧ r89.date = ⟨2021, 3, 31⟩ ∧
        r89.portfolio_value = 1600 ∧ r89.amount_invested = 1600 := by
  have hok : get_portfolio [("X", (1 : ℚ))] scenarioRows 1000 200
      = .ok (runRecords [("X", (1 : ℚ))] 200
          (initRecord [("X", (1 : ℚ))] (rowOf 2021 1 1) 1000) scenarioRows) :=
    get_portfolio_eq_ok _ _ _ _ (by norm_num) (rowOf 2021 1 1) scenarioTail rfl
  have hsh0 : (initRecord [("X", (1 : ℚ))] (rowOf 2021 1 1) 1000).shares "X" = 100 := by
    rw [initRecord_shares_apply _ _ _ ("X", (1 : ℚ)) (List.mem_singleton.mpr rfl)
      (by decide)]
    unfold get_number_of_shares
    rw [show (rowOf 2021 1 1).price "X" = 10 from rfl]
    norm_num
  have hrow0 : scenarioRows[0]? = some (rowOf 2021 1 1) := rfl
  have hrow31 : scenarioRows[31]? = some (rowOf 2021 2 1) := rfl
  have hrow59 : scenarioRows[59]? = some (rowOf 2021 3 1) := rfl
  have hrow89 : scenarioRows[89]? = some (rowOf 2021 3 31) := rfl
  have key : ∀ (i : ℕ) (rowi : PriceRow) (c : ℕ), scenarioRows[i]? = some rowi →
      (scenarioRows.take (i + 1)).countP (fun row => row.date.day == 1) = c →
      (runRecords [("X", (1 : ℚ))] 200
          (initRecord [("X", (1 : ℚ))] (rowOf 2021 1 1) 1000) scenarioRows)[i]?
        = some ((scenarioRows.take (i + 1)).foldl (step [("X", (1 : ℚ))] 200)
            (initRecord [("X", (1 : ℚ))] (rowOf 2021 1 1) 1000)) ∧
        ((scenarioRows.take (i + 1)).foldl (step [("X", (1 : ℚ))] 200)
            (initRecord [("X", (1 : ℚ))] (rowOf 2021 1 1) 1000)).date = rowi.date ∧
        ((scenarioRows.take (i + 1)).foldl (step [("X", (1 : ℚ))] 200)
            (initRecord [("X", (1 : ℚ))] (rowOf 2021 1 1) 1000)).shares "X"
          = 100 + 20 * (c : ℚ) ∧
        ((scenarioRows.take (i + 1)).foldl (step [("X", (1 : ℚ))] 200)
            (initRecord [("X", (1 : ℚ))] (rowOf 2021 1 1) 1000)).portfolio_value
          = (100 + 20 * (c : ℚ)) * 10 := by
    intro i rowi c hi hc
    have hrec : (runRecords [("X", (1 : ℚ))] 200
          (initRecord [("X", (1 : ℚ))] (rowOf 2021 1 1) 1000) scenarioRows)[i]?
        = some ((scenarioRows.take (i + 1)).foldl (step [("X", (1 : ℚ))] 200)
            (initRecord [("X", (1 : ℚ))] (rowOf 2021 1 1) 1000)) := by
      rw [runRecords_getElem, hi]
      rfl
    obtain ⟨hsh, -, hval⟩ := runRecords_flat 200 10 scenarioRows
      (initRecord [("X", (1 : ℚ))] (rowOf 2021 1 1) 1000) scenarioRows_flat i _ hrec
    have hshares : ((scenarioRows.take (i + 1)).foldl (step [("X", (1 : ℚ))] 200)
          (initRecord [("X", (1 : ℚ))] (rowOf 2021 1 1) 1000)).shares "X"
        = 100 + 20 * (c : ℚ) := by
      rw [hsh, hc, hsh0]
      norm_num
    exact ⟨hrec, foldl_take_date _ _ _ _ i rowi hi, hshares, by rw [hval, hshares]⟩
  obtain ⟨h0a, h0b, h0c, -⟩ := key 0 (rowOf 2021 1 1) 1 hrow0 (by decide)
  obtain ⟨h31a, h31b, h31c, -⟩ := key 31 (rowOf 2021 2 1) 2 hrow31 (by decide)
  obtain ⟨h59a, h59b, h59c, -⟩ := key 59 (rowOf 2021 3 1) 3 hrow59 (by decide)
  obtain ⟨h89a, h89b, h89c, h89d⟩ := key 89 (rowOf 2021 3 31) 3 hrow89 (by decide)
  have hamount : ((scenarioRows.take 90).foldl (step [("X", (1 : ℚ))] 200)
        (initRecord [("X", (1 : ℚ))] (rowOf 2021 1 1) 1000)).amount_invested = 1600 := by
    have hrec : (runRecords [("X", (1 : ℚ))] 200
          (initRecord [("X", (1 : ℚ))] (rowOf 2021 1 1) 1000) scenarioRows)[89]?
        = some ((scenarioRows.take 90).foldl (step [("X", (1 : ℚ))] 200)
            (initRecord [("X", (1 : ℚ))] (rowOf 2021 1 1) 1000)) := by
      rw [runRecords_getElem, hrow89]
      rfl
    obtain ⟨-, ham, -⟩ := runRecords_flat 200 10 scenarioRows
      (initRecord [("X", (1 : ℚ))] (rowOf 2021 1 1) 1000) scenarioRows_flat 89 _ hrec
    rw [ham, show (scenarioRows.take 90).countP (fun row => row.date.day == 1) = 3
      from by decide, initRecord_amount]
    norm_num
  refine ⟨_, _, _, _, _, hok, ?_, h0a, h0b, by rw [h0c]; norm_num,
    h31a, h31b, by rw [h31c]; norm_num,
    h59a, h59b, by rw [h59c]; norm_num,
    h89a, h89b, by rw [h89d]; norm_num, hamount⟩
  rw [runRecords_length]
  decide

/-- A row of the raw merged price table: per-ticker price or NaN (none).  The
concrete column set of a frame is described separately where needed. -/
abbrev RawRow := String → Option ℚ

/-- The row of the daily-reindexed table at day d: the observed row when the raw
table has one, an all-NaN row otherwise (resample("1D").last() groups the
date-indexed table by calendar day; with at most one row per day this keeps the
observed rows and inserts NaN rows for missing days). -/
def reindexRow (df : List (ℕ × RawRow)) (d : ℕ) : RawRow :=
  match df.find? (fun e => e.1 == d) with
  | some e => e.2
  | none => fun _ => none

/-- Forward fill, per column: the value at offset k from the first day is the
reindexed value there when observed, else the value carried from offset k-1
(fillna(method="ffill") fills each NaN from the nearest prior non-NaN of the
same column). -/
def ffillAt (df : List (ℕ × RawRow)) (dmin : ℕ) : ℕ → RawRow
  | 0 => reindexRow df dmin
  | k + 1 => fun c =>
    match reindexRow df (dmin + (k + 1)) c with
    | some v => some v
    | none => ffillAt df dmin k c

/-- Source: resample_data(df_prices) = df_prices.resample("1D").last()
.fillna(method="ffill").  One row per calendar day from the first (min) to the
last (max) date of the sorted input index, forward filled per column. -/
def resample_data (df : List (ℕ × RawRow)) : List (ℕ × RawRow) :=
  match df with
  | [] => []
  | e :: es =>
    (List.range (((e :: es).getLast (List.cons_ne_nil e es)).1 - e.1 + 1)).map
      (fun k => (e.1 + k, ffillAt (e :: es) e.1 k))

theorem range_getElem_lt (n k : ℕ) (h : k < n) : (List.range n)[k]? = some k := by
  rw [List.getElem?_eq_getElem (by rw [List.length_range]; exact h)]
  simp

theorem range_getElem_ge (n k : ℕ) (h : n ≤ k) : (List.range n)[k]? = none :=
  List.getElem?_eq_none (by rw [List.length_range]; exact h)

/-- On a table whose i-th row sits at day d0 + i, lookup by day d0 + k finds
exactly row k. -/
theorem find?_contig : ∀ (df : List (ℕ × RawRow)) (d0 k : ℕ), k < df.length →
    (∀ i x, df[i]? = some x → x.1 = d0 + i) →
    df.find? (fun e => e.1 == d0 + k) = df[k]? := by
  intro df
  induction df with
  | nil => intro d0 k hk _; simp at hk
  | cons x xs ih =>
    intro d0 k hk hc
    have hc0 : x.1 = d0 := by
      have := hc 0 x (by rw [List.getElem?_cons_zero])
      omega
    cases k with
    | zero =>
      rw [List.find?_cons_of_pos _ (by simp [hc0]), List.getElem?_cons_zero]
    | succ k =>
      rw [List.find?_cons_of_neg _ (by simp [hc0]), List.getElem?_cons_succ]
      have heq : d0 + (k + 1) = (d0 + 1) + k := by omega
      simp only [heq]
      exact ih (d0 + 1) k (by simpa using hk)
        (fun i y hy => by have := hc (i + 1) y (by simpa using hy); omega)

/-- On a gap-free table with a fixed column set (every row observes exactly the
columns of cols), forward fill reproduces the observed row at every offset. -/
theorem ffill_dense (e : ℕ × RawRow) (es : List (ℕ × RawRow)) (cols : String → Bool)
    (hc : ∀ i x, (e :: es)[i]? = some x → x.1 = e.1 + i)
    (hcols : ∀ x ∈ e :: es, ∀ c, (x.2 c).isSome = cols c) :
    ∀ k (hk : k < (e :: es).length) (c : String),
      ffillAt (e :: es) e.1 k c = ((e :: es)[k]).2 c := by
  intro k
  induction k with
  | zero =>
    intro hk c
    show reindexRow (e :: es) e.1 c = _
    unfold reindexRow
    rw [show (fun q => q.1 == e.1) = (fun (q : ℕ × RawRow) => q.1 == e.1 + 0) from by
        simp, find?_contig (e :: es) e.1 0 (by simp) hc,
      List.getElem?_eq_getElem (by simp)]
  | succ k ihk =>
    intro hk c
    have hk1 : k < (e :: es).length := by omega
    have hfind : (e :: es).find? (fun q => q.1 == e.1 + (k + 1)) = (e :: es)[k + 1]? :=
      find?_contig (e :: es) e.1 (k + 1) hk hc
    have hget : (e :: es)[k + 1]? = some ((e :: es)[k + 1]) :=
      List.getElem?_eq_getElem hk
    show (match reindexRow (e :: es) (e.1 + (k + 1)) c with
      | some v => some v
      | none => ffillAt (e :: es) e.1 k c) = _
    have hridx : reindexRow (e :: es) (e.1 + (k + 1)) = ((e :: es)[k + 1]).2 := by
      unfold reindexRow
      rw [hfind, hget]
    rw [hridx]
    match hval : ((e :: es)[k + 1]).2 c with
    | some v => rfl
    | none =>
      have hcfalse : cols c = false := by
        rw [← hcols ((e :: es)[k + 1]) (List.getElem_mem hk) c, hval]
        rfl
      have hprev : ((e :: es)[k]).2 c = none := by
        have := hcols ((e :: es)[k]) (List.getElem_mem hk1) c
        rw [hcfalse] at this
        exact Option.not_isSome_iff_eq_none.mp (by simp [this])
      rw [ihk hk1 c, hprev]

/-- C7: resampling is idempotent on dense input.  A table with exactly one row
per calendar day (row i at day d0 + i) and no missing values (every row observes
exactly the columns of some set cols) is returned unchanged. -/
theorem resample_idempotent (e : ℕ × RawRow) (es : List (ℕ × RawRow))
    (cols : String → Bool)
    (hc : ∀ i x, (e :: es)[i]? = some x → x.1 = e.1 + i)
    (hcols : ∀ x ∈ e :: es, ∀ c, (x.2 c).isSome = cols c) :
    resample_data (e :: es) = e :: es := by
  have hlastdate : ((e :: es).getLast (List.cons_ne_nil e es)).1 = e.1 + es.length := by
    have h1 : (e :: es).getLast? = some ((e :: es).getLast (List.cons_ne_nil e es)) :=
      List.getLast?_eq_getLast _ _
    rw [List.getLast?_eq_getElem?] at h1
    exact hc es.length _ (by simpa using h1)
  have hbound : ((e :: es).getLast (List.cons_ne_nil e es)).1 - e.1 + 1
      = (e :: es).length := by
    rw [hlastdate, List.length_cons]
    omega
  show (List.range (((e :: es).getLast (List.cons_ne_nil e es)).1 - e.1 + 1)).map
      (fun k => (e.1 + k, ffillAt (e :: es) e.1 k)) = e :: es
  rw [hbound]
  apply List.ext_getElem?
  intro k
  rw [List.getElem?_map]
  by_cases hk : k < (e :: es).length
  · rw [range_getElem_lt _ _ hk, List.getElem?_eq_getElem hk]
    have hdate : ((e :: es)[k]).1 = e.1 + k := hc k _ (List.getElem?_eq_getElem hk)
    have hrow : ffillAt (e :: es) e.1 k = ((e :: es)[k]).2 :=
      funext (fun c => ffill_dense e es cols hc hcols k hk c)
    simp only [Option.map_some']
    rw [hrow, ← hdate]
  · rw [range_getElem_ge _ _ (by omega),
      show (e :: es)[k]? = none from List.getElem?_eq_none (by omega)]
    rfl

/-- Concrete one-column raw row at price 10, used by the resampler witnesses. -/
def rX10 : RawRow := fun c => if c = "X" then some 10 else none

/-- Concrete one-column raw row at price 20, used by the resampler witnesses. -/
def rX20 : RawRow := fun c => if c = "X" then some 20 else none

/-- C7 witness: a two-day dense table (days 0 and 1, column X observed on both)
comes back unchanged from resample_data. -/
theorem resample_idempotent_witness :
    resample_data [(0, rX10), (1, rX10)] = [(0, rX10), (1, rX10)] := by
  apply resample_idempotent (0, rX10) [(1, rX10)] (fun c => c == "X")
  · intro i x h
    match i with
    | 0 => cases Option.some.inj h; rfl
    | 1 => cases Option.some.inj h; rfl
    | i + 2 => exact absurd h (by simp)
  · intro x hx c
    have hiso : (rX10 c).isSome = (c == "X") := by
      unfold rX10
      by_cases hc2 : c = "X" <;> simp [hc2]
    rcases List.mem_cons.mp hx with rfl | hx2
    · exact hiso
    · rcases List.mem_cons.mp hx2 with rfl | hx3
      · exact hiso
      · cases hx3

/-- Forward fill carries the last observation at offset j0 through a run of
missing observations up to offset k. -/
theorem ffill_carry (df : List (ℕ × RawRow)) (dmin : ℕ) (c : String) (v : ℚ)
    (j0 : ℕ) : ∀ k, j0 ≤ k →
      reindexRow df (dmin + j0) c = some v →
      (∀ j, j0 < j → j ≤ k → reindexRow df (dmin + j) c = none) →
      ffillAt df dmin k c = some v := by
  intro k
  induction k with
  | zero =>
    intro hj0 hobs hgap
    have h0 : j0 = 0 := Nat.le_zero.mp hj0
    subst h0
    exact hobs
  | succ k ihk =>
    intro hj0 hobs hgap
    show (match reindexRow df (dmin + (k + 1)) c with
      | some v => some v
      | none => ffillAt df dmin k c) = some v
    by_cases hj : j0 = k + 1
    · subst hj
      rw [hobs]
    · have hgapk : reindexRow df (dmin + (k + 1)) c = none :=
        hgap (k + 1) (by omega) (le_refl _)
      rw [hgapk]
      exact ihk (by omega) hobs (fun j h1 h2 => hgap j h1 (by omega))

/-- C8: if column c is observed at day dmin + j0 with value v and not observed on
any of the days dmin + j for j0 < j ≤ k, then the resampled table assigns value v
to column c on day dmin + k: each missing day carries the most recent prior
observed price of that column. -/
theorem forward_fill_carries (e : ℕ × RawRow) (es : List (ℕ × RawRow)) (c : String)
    (v : ℚ) (j0 k : ℕ)
    (hj : j0 ≤ k)
    (hk : k ≤ ((e :: es).getLast (List.cons_ne_nil e es)).1 - e.1)
    (hobs : reindexRow (e :: es) (e.1 + j0) c = some v)
    (hgap : ∀ j, j0 < j → j ≤ k → reindexRow (e :: es) (e.1 + j) c = none) :
    ∃ r, (resample_data (e :: es))[k]? = some (e.1 + k, r) ∧ r c = some v := by
  refine ⟨ffillAt (e :: es) e.1 k, ?_,
    ffill_carry (e :: es) e.1 c v j0 k hj hobs hgap⟩
  show ((List.range (((e :: es).getLast (List.cons_ne_nil e es)).1 - e.1 + 1)).map
      (fun k2 => (e.1 + k2, ffillAt (e :: es) e.1 k2)))[k]? = _
  rw [List.getElem?_map, range_getElem_lt _ _ (by omega)]
  rfl

/-- C8 witness: Friday (day 5) is the only observation before Monday (day 8); the
resampled Saturday (offset 1) and Sunday (offset 2) rows carry the Friday price. -/
theorem forward_fill_carries_witness :
    (∃ r, (resample_data [(5, rX10), (8, rX20)])[1]? = some (5 + 1, r) ∧
        r "X" = some 10) ∧
      ∃ r, (resample_data [(5, rX10), (8, rX20)])[2]? = some (5 + 2, r) ∧
        r "X" = some 10 := by
  constructor
  · exact forward_fill_carries (5, rX10) [(8, rX20)] "X" 10 0 1 (by omega) (by decide)
      (by decide)
      (by intro j h1 h2; interval_cases j <;> decide)
  · exact forward_fill_carries (5, rX10) [(8, rX20)] "X" 10 0 2 (by omega) (by decide)
      (by decide)
      (by intro j h1 h2; interval_cases j <;> decide)

/-- The exception raised by load_data: the ValueError
f"{ticker} data only available from {first_date}" naming the ticker and its
earliest actually-available date. -/
inductive LoadError where
  | dataAvailability (ticker : String) (first_date : ℕ)
deriving DecidableEq, Repr

/-- The earliest date of a fetched per-ticker series (df_ticker.index.min();
none plays the role of NaT on an empty frame, and NaT compares false). -/
def minDate (s : List (ℕ × ℚ)) : Option ℕ := (s.map Prod.fst).min?

/-- Round half to even at two decimals (df.round(2) on float frames). -/
def round2 (q : ℚ) : ℚ :=
  let f : ℤ := ⌊q * 100⌋
  let r : ℚ := q * 100 - (f : ℚ)
  if r < 1 / 2 then (f : ℚ) / 100
  else if 1 / 2 < r then ((f + 1 : ℤ) : ℚ) / 100
  else if f % 2 = 0 then (f : ℚ) / 100 else ((f + 1 : ℤ) : ℚ) / 100

/-- The per-ticker fetch-and-validate loop of load_data: pull each series from
the provider, raise the availability error as soon as a ticker whose earliest
date lies after start_date is seen, otherwise accumulate the series in order. -/
def load_loop (provider : String → List (ℕ × ℚ)) (start_date : ℕ) :
    List String → Except LoadError (List (String × List (ℕ × ℚ)))
  | [] => .ok []
  | t :: ts =>
    match minDate (provider t) with
    | some m =>
      if start_date < m then .error (.dataAvailability t m)
      else (load_loop provider start_date ts).map (fun rest => (t, provider t) :: rest)
    | none => (load_loop provider start_date ts).map (fun rest => (t, provider t) :: rest)

/-- pd.concat(data, axis=1) followed by df.round(2): the union of all observed
dates, sorted, one row per date, each ticker column holding its rounded price
where observed and NaN elsewhere. -/
def concat_round (data : List (String × List (ℕ × ℚ))) : List (ℕ × RawRow) :=
  (((data.map (fun p => p.2.map Prod.fst)).flatten.dedup).mergeSort (fun a b => a ≤ b)).map
    (fun d => (d, fun c =>
      (data.find? (fun p => p.1 == c)).bind
        (fun p => (p.2.find? (fun q => q.1 == d)).map (fun q => round2 q.2))))

/-- Source: load_data(tickers, start_date, end_date) with the Yahoo fetch
abstracted as a provider function from tickers to date-indexed price series. -/
def load_data (provider : String → List (ℕ × ℚ)) (tickers : List String)
    (start_date : ℕ) : Except LoadError (List (ℕ × RawRow)) :=
  (load_loop provider start_date tickers).map concat_round

theorem load_loop_cons_some (provider : String → List (ℕ × ℚ)) (start_date : ℕ)
    (t : String) (ts : List String) (m0 : ℕ) (hm : minDate (provider t) = some m0) :
    load_loop provider start_date (t :: ts) =
      if start_date < m0 then .error (.dataAvailability t m0)
      else (load_loop provider start_date ts).map (fun rest => (t, provider t) :: rest) := by
  conv_lhs => unfold load_loop
  rw [hm]

theorem load_loop_cons_none (provider : String → List (ℕ × ℚ)) (start_date : ℕ)
    (t : String) (ts : List String) (hm : minDate (provider t) = none) :
    load_loop provider start_date (t :: ts) =
      (load_loop provider start_date ts).map (fun rest => (t, provider t) :: rest) := by
  conv_lhs => unfold load_loop
  rw [hm]

theorem load_loop_error (provider : String → List (ℕ × ℚ)) (start_date : ℕ) :
    ∀ tickers : List String,
      (∃ t ∈ tickers, ∃ m, minDate (provider t) = some m ∧ start_date < m) →
      ∃ t m, t ∈ tickers ∧ minDate (provider t) = some m ∧ start_date < m ∧
        load_loop provider start_date tickers = .error (.dataAvailability t m) := by
  intro tickers
  induction tickers with
  | nil => rintro ⟨t, ht, -⟩; cases ht
  | cons t ts ih =>
    rintro ⟨t1, ht1, m1, hm1, hlt1⟩
    match hm : minDate (provider t) with
    | some m0 =>
      by_cases hlt : start_date < m0
      · exact ⟨t, m0, List.mem_cons_self t ts, hm, hlt, by
          rw [load_loop_cons_some provider start_date t ts m0 hm, if_pos hlt]⟩
      · have ht1ts : t1 ∈ ts := by
          rcases List.mem_cons.mp ht1 with rfl | h2
          · rw [hm] at hm1
            exact absurd ((Option.some.inj hm1) ▸ hlt1) hlt
          · exact h2
        obtain ⟨t2, m2, hmem2, hm2, hlt2, herr⟩ := ih ⟨t1, ht1ts, m1, hm1, hlt1⟩
        exact ⟨t2, m2, List.mem_cons_of_mem t hmem2, hm2, hlt2, by
          rw [load_loop_cons_some provider start_date t ts m0 hm, if_neg hlt, herr]
          rfl⟩
    | none =>
      have ht1ts : t1 ∈ ts := by
        rcases List.mem_cons.mp ht1 with rfl | h2
        · rw [hm] at hm1; cases hm1
        · exact h2
      obtain ⟨t2, m2, hmem2, hm2, hlt2, herr⟩ := ih ⟨t1, ht1ts, m1, hm1, hlt1⟩
      exact ⟨t2, m2, List.mem_cons_of_mem t hmem2, hm2, hlt2, by
        rw [load_loop_cons_none provider start_date t ts hm, herr]
        rfl⟩

theorem load_loop_ok (provider : String → List (ℕ × ℚ)) (start_date : ℕ) :
    ∀ tickers : List String,
      (∀ t ∈ tickers, ∀ m, minDate (provider t) = some m → m ≤ start_date) →
      ∃ data, load_loop provider start_date tickers = .ok data := by
  intro tickers
  induction tickers with
  | nil => exact fun _ => ⟨[], rfl⟩
  | cons t ts ih =>
    intro h
    obtain ⟨data, hdata⟩ := ih (fun t2 h2 => h t2 (List.mem_cons_of_mem t h2))
    match hm : minDate (provider t) with
    | some m0 =>
      have hle : ¬start_date < m0 := not_lt.mpr (h t (List.mem_cons_self t ts) m0 hm)
      exact ⟨(t, provider t) :: data, by
        rw [load_loop_cons_some provider start_date t ts m0 hm, if_neg hle, hdata]
        rfl⟩
    | none =>
      exact ⟨(t, provider t) :: data, by
        rw [load_loop_cons_none provider start_date t ts hm, hdata]
        rfl⟩

/-- C9: load_data raises the availability error, naming an offending ticker and
its earliest available date, whenever some requested ticker starts strictly
after start_date, and raises no error (the whole merged frame is returned) when
every ticker covers start_date.  An error aborts the run: no frame is built. -/
theorem availability_check (provider : String → List (ℕ × ℚ))
    (tickers : List String) (start_date : ℕ) :
    ((∃ t ∈ tickers, ∃ m, minDate (provider t) = some m ∧ start_date < m) →
        ∃ t m, t ∈ tickers ∧ minDate (provider t) = some m ∧ start_date < m ∧
          load_data provider tickers start_date = .error (.dataAvailability t m)) ∧
      ((∀ t ∈ tickers, ∀ m, minDate (provider t) = some m → m ≤ start_date) →
        ∃ df, load_data provider tickers start_date = .ok df) := by
  constructor
  · intro h
    obtain ⟨t, m, hmem, hm, hlt, herr⟩ := load_loop_error provider start_date tickers h
    exact ⟨t, m, hmem, hm, hlt, by unfold load_data; rw [herr]; rfl⟩
  · intro h
    obtain ⟨data, hdata⟩ := load_loop_ok provider start_date tickers h
    exact ⟨concat_round data, by unfold load_data; rw [hdata]; rfl⟩

/-- Concrete price provider for the C9 witness: SPY starts at day 0, LATE only
at day 5. -/
def provWitness : String → List (ℕ × ℚ) :=
  fun t => if t = "SPY" then [(0, 10), (1, 11)] else [(5, 20)]

/-- C9 witness: requesting SPY and LATE from day 2 fails with the availability
error naming LATE and day 5; requesting only SPY from day 5 succeeds. -/
theorem availability_check_witness :
    (∃ t m, t ∈ ["SPY", "LATE"] ∧ minDate (provWitness t) = some m ∧ 2 < m ∧
        load_data provWitness ["SPY", "LATE"] 2 = .error (.dataAvailability t m)) ∧
      ∃ df, load_data provWitness ["SPY"] 5 = .ok df := by
  constructor
  · exact (availability_check provWitness ["SPY", "LATE"] 2).1
      ⟨"LATE", by simp, 5, by decide, by omega⟩
  · refine (availability_check provWitness ["SPY"] 5).2 ?_
    intro t ht m hm
    rcases List.mem_singleton.mp ht with rfl
    rw [show minDate (provWitness "SPY") = some 0 from by decide] at hm
    have hm0 := Option.some.inj hm
    omega
